import Mathlib

/-!
Verification of the command resolution and execution pipeline of
`src/codeManager.ts` (vscode-code-runner).

The TypeScript source is shallowly embedded: each private method of
`CodeManager` that the claims touch becomes a Lean function over `String`
(represented through its `List Char` data), JavaScript `String.replace`
with a global literal pattern becomes a left-to-right non-overlapping
scan (`replaceL`), the three path-extraction regular expressions become
explicit last-separator / last-dot computations, and the run/stop state
of the output channel becomes a small transition system.  Code that can
throw (reading `.length` of a `null` regex match) returns `Except`.
-/

/-- Characters the path regexes `[\/\\]` treat as separators. -/
def isSepChar (c : Char) : Bool := c = '/' || c = '\\'

/-- The literal dot used by the extension-stripping regex. -/
def isDotChar (c : Char) : Bool := c = '.'

/-- Whitespace removed by JavaScript `String.prototype.trim` (the ASCII
part, which is all the embedded theorems depend on). -/
def isJsWs (c : Char) : Bool :=
  c = ' ' || c = '\t' || c = '\n' || c = '\r' || c = '\x0b' || c = '\x0c'

/-- The character class `[a-z]` of `rndName`. -/
def isLowerAlpha (c : Char) : Bool := 'a' ≤ c && c ≤ 'z'

/-- The character class `[A-Za-z]` of the drive-letter regex. -/
def isAsciiAlpha (c : Char) : Bool := ('A' ≤ c && c ≤ 'Z') || ('a' ≤ c && c ≤ 'z')

/-- `occursB p l` models JavaScript `l.indexOf(p) > -1` for a literal
pattern `p`: some (contiguous) occurrence of `p` exists in `l`. -/
def occursB (p : List Char) : List Char → Bool
  | [] => p.isEmpty
  | c :: cs => p.isPrefixOf (c :: cs) || occursB p cs

/-- Scanner for JavaScript `str.replace(/lit/g, v)` with a literal
pattern: scan left to right and replace each non-overlapping occurrence.
`replAux p v n l` first skips `n` characters (the not-yet-consumed rest
of a match) and then scans.  Written with the skip counter so that the
recursion is structural and the kernel can evaluate it. -/
def replAux (p v : List Char) : Nat → List Char → List Char
  | _, [] => []
  | n+1, _ :: cs => replAux p v n cs
  | 0, c :: cs =>
    if p ≠ [] ∧ p.isPrefixOf (c :: cs) then
      v ++ replAux p v (p.length - 1) cs
    else
      c :: replAux p v 0 cs

/-- JavaScript global replacement of the literal pattern `p` by `v`. -/
def replaceL (p v l : List Char) : List Char := replAux p v 0 l

/-- Scanner for JavaScript `str.replace("lit", v)` (string pattern):
only the first occurrence is replaced. -/
def replaceFirstL (p v : List Char) : List Char → List Char
  | [] => []
  | c :: cs =>
    if p ≠ [] ∧ p.isPrefixOf (c :: cs) then
      v ++ (c :: cs).drop p.length
    else
      c :: replaceFirstL p v cs

/-- Split at each non-overlapping occurrence of `p`, with the same
left-to-right scan as `replaceL`; `splitSkip` carries the same skip
counter. -/
def splitSkip (p : List Char) : Nat → List Char → List (List Char)
  | _, [] => [[]]
  | n+1, _ :: cs => splitSkip p n cs
  | 0, c :: cs =>
    if p ≠ [] ∧ p.isPrefixOf (c :: cs) then
      [] :: splitSkip p (p.length - 1) cs
    else
      match splitSkip p 0 cs with
      | [] => [[c]]
      | h :: t => (c :: h) :: t

/-- The parts of `l` between the non-overlapping occurrences of `p`. -/
def splitL (p l : List Char) : List (List Char) := splitSkip p 0 l

/-- Join a list of parts with a separator (the shape in which the
global-replacement theorems describe the scan's output). -/
def icalate (sep : List Char) : List (List Char) → List Char
  | [] => []
  | [x] => x
  | x :: y :: rest => x ++ sep ++ icalate sep (y :: rest)

/-- Split `l` at its LAST character satisfying `f`:
`lastSplitBy f l = some (a, b)` with `l = a ++ b`, `a` ending in the
last such character and `b` free of them; `none` when no character of
`l` satisfies `f`.  This is how the greedy `.*[\/\\]` / `.*\.`
regex fragments pick their match. -/
def lastSplitBy (f : Char → Bool) : List Char → Option (List Char × List Char)
  | [] => none
  | c :: cs =>
    match lastSplitBy f cs with
    | some (a, b) => some (c :: a, b)
    | none => if f c then some ([c], cs) else none

/-- `true` iff some separator has a dot somewhere after it — the exact
success condition of the stem regex `.*[\/\\](.*(?=\..*))` (the scan may
backtrack to an earlier separator, so only a dot after SOME separator is
needed, not one in the final path segment). -/
def sepThenDot : List Char → Bool
  | [] => false
  | c :: cs => (isSepChar c && cs.any isDotChar) || sepThenDot cs

/-- JavaScript `trim` on character lists. -/
def jsTrimL (l : List Char) : List Char :=
  ((l.dropWhile isJsWs).reverse.dropWhile isJsWs).reverse

/-- Scanner for the drive-letter rewrite `/([A-Za-z]):\\/g` with
replacement `root + lowercased-letter + "/"`. -/
def driveRewriteL (root : List Char) : List Char → List Char
  | c :: ':' :: '\\' :: rest =>
    if isAsciiAlpha c then
      root ++ (c.toLower :: '/' :: driveRewriteL root rest)
    else
      c :: driveRewriteL root (':' :: '\\' :: rest)
  | c :: cs => c :: driveRewriteL root cs
  | [] => []

/-- The rewrite `replace(/\\/g, "/")`. -/
def slashify (l : List Char) : List Char :=
  l.map (fun c => if c = '\\' then '/' else c)

/-- The capture of the stem regex `.*[\/\\](.*(?=\..*))` on a
newline-free subject: the text between the last separator preceding the
last dot and that dot.  `none` models a failed match. -/
def stemSplit (l : List Char) : Option (List Char) :=
  match lastSplitBy isDotChar l with
  | none => none
  | some (pd, _) =>
    match lastSplitBy isSepChar pd.dropLast with
    | none => none
    | some (_, b2) => some b2


/-! ### Embedding of `CodeManager` (src/codeManager.ts)

Strings are handled through their character lists.  The three path
helpers model their regular expressions for newline-free subjects (the
`.` metacharacter does not cross a newline; every path the claims test
is newline-free).  JavaScript `null`/`undefined` configuration values
are modelled as `Option`, with JavaScript truthiness of a string being
`≠ ""` on the `some` case. -/

/-- The TypeError thrown when `.length` is read from a `null` regex
match result. -/
inductive JsErr where
  | nullMatch
deriving DecidableEq

/-- `String.prototype.toLowerCase` (character-wise). -/
def jsToLower (s : String) : String := ⟨s.data.map Char.toLower⟩

/-- `s.indexOf(pat) > -1`. -/
def sContains (s pat : String) : Bool := occursB pat.data s.data

/-- `str.replace(/pat/g, v)` for a literal pattern. -/
def jsReplace (s pat v : String) : String := ⟨replaceL pat.data v.data s.data⟩

/-- `str.replace("pat", v)` (first occurrence only). -/
def jsReplaceFirst (s pat v : String) : String := ⟨replaceFirstL pat.data v.data s.data⟩

/-- `getWorkspaceRoot`: `vscode.workspace.rootPath ? rootPath :
codeFileDir` (lines 210-212). -/
def getWorkspaceRoot (rootPath : Option String) (codeFileDir : String) : String :=
  match rootPath with
  | some r => if r = "" then codeFileDir else r
  | none => codeFileDir

/-- `quoteFileName` (lines 248-250). -/
def quoteFileName (fileName : String) : String := "\"" ++ fileName ++ "\""

/-- The match array of `codeFile.match(/.*[\/\\](.*)/)` (line 218): the
greedy `.*` puts the last separator at the group boundary, so the
capture is the text after the last separator; `none` models a failed
match (no separator). -/
def baseMatchArr (s : String) : Option (List String) :=
  match lastSplitBy isSepChar s.data with
  | none => none
  | some (a, b) => some [⟨a ++ b⟩, ⟨b⟩]

/-- `getCodeBaseFile` (lines 217-220): reading `.length` of a `null`
match throws; on a successful match the 2-element array is truthy and
element 1 (the capture) is returned. -/
def getCodeBaseFile (s : String) : Except JsErr String :=
  match baseMatchArr s with
  | none => .error .nullMatch
  | some arr => .ok (if arr.length ≠ 0 then arr.getD 1 "" else s)

/-- The match array of `codeFile.match(/(.*[\/\\]).*/)` (line 234): the
capture is the text up to and including the last separator. -/
def dirMatchArr (s : String) : Option (List String) :=
  match lastSplitBy isSepChar s.data with
  | none => none
  | some (a, b) => some [⟨a ++ b⟩, ⟨a⟩]

/-- `getCodeFileDir` (lines 233-236). -/
def getCodeFileDir (s : String) : Except JsErr String :=
  match dirMatchArr s with
  | none => .error .nullMatch
  | some arr => .ok (if arr.length ≠ 0 then arr.getD 1 "" else s)

/-- The match array of `codeFile.match(/.*[\/\\](.*(?=\..*))/)`
(line 226): `.*[\/\\]` backtracks to the last separator that still has
a dot after it — that is, the last separator before the last dot — and
the greedy capture then ends just before the last dot. -/
def stemMatchArr (s : String) : Option (List String) :=
  match lastSplitBy isDotChar s.data with
  | none => none
  | some (pd, _) =>
    match lastSplitBy isSepChar pd.dropLast with
    | none => none
    | some (a2, b2) => some [⟨a2 ++ b2⟩, ⟨b2⟩]

/-- `getCodeFileWithoutDirAndExt` (lines 225-228). -/
def getCodeFileWithoutDirAndExt (s : String) : Except JsErr String :=
  match stemMatchArr s with
  | none => .error .nullMatch
  | some arr => .ok (if arr.length ≠ 0 then arr.getD 1 "" else s)

/-- `getCodeFileDirWithoutTrailingSlash` (lines 241-243):
`replace(/[\/\\]$/, "")` removes one trailing separator. -/
def stripTrailingSep (d : String) : String :=
  match d.data.getLast? with
  | some c => if isSepChar c then ⟨d.data.dropLast⟩ else d
  | none => d

/-- The placeholder array of `getFinalCommandToRunCodeFile`
(lines 266-282) in source order, with each replacement value computed
eagerly exactly as the array literal does (`codeFileDir` first, then
the array elements top to bottom; the second `getCodeFileDir()` call
inside `getCodeFileDirWithoutTrailingSlash` returns the same value). -/
def placeholderValues (rootPath : Option String) (codeFile : String) :
    Except JsErr (List (String × String)) := do
  let codeFileDir ← getCodeFileDir codeFile
  let ws := getWorkspaceRoot rootPath codeFileDir
  let stem ← getCodeFileWithoutDirAndExt codeFile
  let full := quoteFileName codeFile
  let base ← getCodeBaseFile codeFile
  let dns := quoteFileName (stripTrailingSep codeFileDir)
  let dirq := quoteFileName codeFileDir
  pure [("$workspaceRoot", ws), ("$fileNameWithoutExt", stem), ("$fullFileName", full),
    ("$fileName", base), ("$dirWithoutTrailingSlash", dns), ("$dir", dirq)]

/-- `placeholders.forEach(ph => cmd = cmd.replace(ph.regex, ph.replaceValue))`
(lines 284-286). -/
def applyPairs (tpl : String) (prs : List (String × String)) : String :=
  prs.foldl (fun cmd pr => jsReplace cmd pr.1 pr.2) tpl

/-- The substituted command before the append-file decision. -/
def substitutedCommand (rootPath : Option String) (codeFile tpl : String) :
    Except JsErr String :=
  (placeholderValues rootPath codeFile).map (applyPairs tpl)

/-- `cmd !== executor ? cmd : executor + (appendFile ? " " + quoted : "")`
(line 289). -/
def finalizeCmd (executor cmd : String) (appendFile : Bool) (codeFile : String) : String :=
  if cmd ≠ executor then cmd
  else executor ++ (if appendFile then " " ++ quoteFileName codeFile else "")

/-- `getFinalCommandToRunCodeFile` (lines 263-290): the placeholder
block only runs when `this._codeFile` is truthy. -/
def getFinalCommandToRunCodeFile (rootPath : Option String)
    (codeFile executor : String) (appendFile : Bool) : Except JsErr String :=
  if codeFile ≠ "" then
    (substitutedCommand rootPath codeFile executor).map
      (fun cmd => finalizeCmd executor cmd appendFile codeFile)
  else
    .ok (finalizeCmd executor executor appendFile codeFile)

/-- `getExecutor` (lines 172-190).  Maps model the configuration
objects, `none` standing for a missing or `null` entry; the result is
the pair (effective `this._languageId`, executor or `null`). -/
def getExecutor (executorMap executorMapByFileExtension : String → Option String)
    (defaultLanguage : String) (languageId : Option String) (activeLanguageId : String)
    (fileExtension : String) : String × Option String :=
  let lang1 := match languageId with
    | none => activeLanguageId
    | some l => l
  let e1 := executorMap lang1
  let le2 : String × Option String :=
    if e1 = none ∧ fileExtension ≠ "" then
      match executorMapByFileExtension fileExtension with
      | some t => (fileExtension, some t)
      | none => (lang1, none)
    else (lang1, e1)
  if le2.2 = none then (defaultLanguage, executorMap defaultLanguage) else le2

/-- `rndName` (lines 151-153) as a function of the string produced by
`Math.random().toString(36)`: `replace(/[^a-z]+/g, "")` deletes every
maximal run of non-`[a-z]` characters, i.e. filters the string to its
lowercase letters, and `substr(0, 10)` keeps at most the first 10. -/
def rndNameFrom (s : String) : String := ⟨(s.data.filter isLowerAlpha).take 10⟩

/-- The `fileType` selection of `createRandomFile` (lines 156-166),
with JavaScript truthiness of `this._languageId` and of the map entry. -/
def chooseFileType (languageIdToFileExtensionMap : String → Option String)
    (languageId fileExtension : String) : String :=
  match languageIdToFileExtensionMap languageId with
  | some t =>
    if languageId ≠ "" ∧ t ≠ "" then t
    else if fileExtension ≠ "" then fileExtension else "." ++ languageId
  | none => if fileExtension ≠ "" then fileExtension else "." ++ languageId

/-- `tmpFileName = "temp" + this.rndName() + fileType` (line 167). -/
def tmpFileNameFor (languageIdToFileExtensionMap : String → Option String)
    (languageId fileExtension rndSrc : String) : String :=
  "temp" ++ rndNameFrom rndSrc ++ chooseFileType languageIdToFileExtensionMap languageId fileExtension

/-- JavaScript `text.trim()`. -/
def jsTrim (s : String) : String := ⟨jsTrimL s.data⟩

/-- The php normalization of `getCodeFileAndExecute` (lines 136-141):
trim, then prepend the opening tag unless the trimmed text already
starts with it. -/
def phpInject (text : String) : String :=
  let t := jsTrim text
  if "<?php".data.isPrefixOf t.data then t else "<?php\r\n" ++ t

/-- The text written to the temporary file for a given effective
language id (lines 134-145). -/
def materializeText (languageId text : String) : String :=
  if languageId = "php" then phpInject text else text

/-- `fs.writeFileSync(path, content)` over a filesystem modelled as a
map from paths to contents. -/
def fsWrite (fs : String → Option String) (path content : String) : String → Option String :=
  fun q => if q = path then some content else fs q

/-- `changeExecutorFromCmdToPs` (lines 292-305): gated on the host
platform being win32, a truthy configured Windows shell whose
lowercased name contains "powershell", and the command containing
`" && "`; then the first `&&` (string pattern, line 297) becomes
`"; if ($?) \x7b"`, every remaining `&&` (global pattern, line 299)
becomes `"\x7d ; if ($?) \x7b"`, `$dir$fileNameWithoutExt` is rewritten
to `.\$fileNameWithoutExt`, and `" \x7d"` is appended. -/
def changeExecutorFromCmdToPs (isWin : Bool) (windowsShell : Option String)
    (executor : String) : String :=
  if isWin then
    match windowsShell with
    | none => executor
    | some sh =>
      if sh ≠ "" ∧ sContains (jsToLower sh) "powershell" = true ∧
          sContains executor " && " = true then
        let r1 : String := "; if ($?) \x7b"
        let e1 := jsReplaceFirst executor "&&" r1
        let e2 := jsReplace e1 "&&" ("\x7d " ++ r1)
        let e3 := jsReplace e2 "$dir$fileNameWithoutExt" ".\\$fileNameWithoutExt"
        e3 ++ " \x7d"
      else executor
  else executor

/-- The specification-side description of the `&&` chain rewrite: split
the command at its `&&` occurrences, rejoin with `"; if ($?) \x7b"`
after the first part and `"\x7d ; if ($?) \x7b"` between the remaining
parts, rewrite the directory+stem placeholder pattern, and append a
closing brace. -/
def psChainedForm (executor : String) : String :=
  let r1 : String := "; if ($?) \x7b"
  let r2 : String := "\x7d ; if ($?) \x7b"
  let chained : List Char :=
    match splitL ['&', '&'] executor.data with
    | [] => executor.data
    | x :: xs => x ++ r1.data ++ icalate r2.data xs
  jsReplace ⟨chained⟩ "$dir$fileNameWithoutExt" ".\\$fileNameWithoutExt" ++ " \x7d"

/-- JavaScript truthiness of an optional string. -/
def optTruthy : Option String → Bool
  | none => false
  | some s => s != ""

/-- The Bash-on-Windows shell test of line 315: truthy shell whose
lowercased name contains both "bash" and "windows". -/
def bashOnWindowsShell : Option String → Bool
  | none => false
  | some sh => sh != "" && sContains (jsToLower sh) "bash" && sContains (jsToLower sh) "windows"

/-- `changeFilePathForBashOnWindows` (lines 307-320). -/
def changeFilePathForBashOnWindows (isWin : Bool)
    (windowsShell terminalRoot : Option String) (command : String) : String :=
  if isWin then
    if optTruthy windowsShell && optTruthy terminalRoot then
      ⟨slashify (driveRewriteL (terminalRoot.getD "").data command.data)⟩
    else if bashOnWindowsShell windowsShell then
      ⟨slashify (driveRewriteL "/mnt/".data command.data)⟩
    else command
  else command

/-! ### The output-channel run/stop transition system

`_isRunning` (set at line 348, cleared at lines 373 and 90), the
continuations of `saveAll().then` / `document.save().then`
(lines 122-131), which call `executeCommand` without re-checking
`_isRunning`, and the set of spawned, not yet closed child processes.
Each event is one synchronous segment of the event loop:
`invokeRun` is `run()`/`runCustomCommand()` up to its first suspension
(rejected at lines 33-36 / 58-61 when the flag is set; when a
save-before-run option is on, the spawn happens later in `saveDone`,
the continuation of the save promise; otherwise the same segment
reaches `executeCommandInOutputChannel`, which sets the flag and
spawns), `procClose` is the `close` handler (lines 372-383) and
`stopCmd` is `stop()` (lines 87-94), which kills the tracked process
tree via `tree-kill` without waiting. -/
structure RunnerState where
  isRunning : Bool
  pendingSaves : Nat
  activeProcs : Nat
deriving DecidableEq

inductive RunnerEv where
  | invokeRun
  | saveDone
  | procClose
  | stopCmd
deriving DecidableEq

def runnerStep (saveBeforeRun : Bool) (s : RunnerState) : RunnerEv → RunnerState
  | .invokeRun =>
    if s.isRunning then s
    else if saveBeforeRun then { s with pendingSaves := s.pendingSaves + 1 }
    else { s with isRunning := true, activeProcs := s.activeProcs + 1 }
  | .saveDone =>
    match s.pendingSaves with
    | 0 => s
    | n+1 => { s with pendingSaves := n, isRunning := true, activeProcs := s.activeProcs + 1 }
  | .procClose =>
    if s.activeProcs ≠ 0 then { s with activeProcs := s.activeProcs - 1, isRunning := false }
    else s
  | .stopCmd =>
    if s.isRunning then { s with isRunning := false, activeProcs := s.activeProcs - 1 }
    else s

def initRunner : RunnerState := ⟨false, 0, 0⟩

def runTrace (saveBeforeRun : Bool) (evs : List RunnerEv) : RunnerState :=
  evs.foldl (runnerStep saveBeforeRun) initRunner

/-- A template that contains none of the six placeholder patterns. -/
def placeholderFree (tpl : String) : Prop :=
  occursB "$workspaceRoot".data tpl.data = false ∧
  occursB "$fileNameWithoutExt".data tpl.data = false ∧
  occursB "$fullFileName".data tpl.data = false ∧
  occursB "$fileName".data tpl.data = false ∧
  occursB "$dirWithoutTrailingSlash".data tpl.data = false ∧
  occursB "$dir".data tpl.data = false

/-- `icalate` on strings. -/
def sIcalate (sep : String) (parts : List String) : String :=
  ⟨icalate sep.data (parts.map String.data)⟩

/-! ### Basic facts about the scanners -/

theorem replAux_skip (p v : List Char) : ∀ (n : Nat) (l : List Char),
    replAux p v n l = replaceL p v (l.drop n)
  | 0, l => by simp [replaceL]
  | n+1, [] => by simp [replAux, replaceL]
  | n+1, _ :: cs => by
    rw [replAux, replAux_skip p v n cs, List.drop_succ_cons]

theorem replaceL_nil (p v : List Char) : replaceL p v [] = [] := rfl

theorem replaceL_cons (p v : List Char) (c : Char) (cs : List Char) :
    replaceL p v (c :: cs) =
      if p ≠ [] ∧ p.isPrefixOf (c :: cs) then
        v ++ replaceL p v (cs.drop (p.length - 1))
      else
        c :: replaceL p v cs := by
  show replAux p v 0 (c :: cs) = _
  rw [replAux]
  split
  · rw [replAux_skip]
  · rfl

theorem splitSkip_skip (p : List Char) : ∀ (n : Nat) (l : List Char),
    splitSkip p n l = splitL p (l.drop n)
  | 0, l => by simp [splitL]
  | n+1, [] => by simp [splitSkip, splitL]
  | n+1, _ :: cs => by
    rw [splitSkip, splitSkip_skip p n cs, List.drop_succ_cons]

theorem splitL_nil (p : List Char) : splitL p [] = [[]] := rfl

theorem splitL_cons (p : List Char) (c : Char) (cs : List Char) :
    splitL p (c :: cs) =
      if p ≠ [] ∧ p.isPrefixOf (c :: cs) then
        [] :: splitL p (cs.drop (p.length - 1))
      else
        match splitL p cs with
        | [] => [[c]]
        | h :: t => (c :: h) :: t := by
  show splitSkip p 0 (c :: cs) = _
  rw [splitSkip]
  split
  · rw [splitSkip_skip]
  · rfl

theorem splitL_ne_nil (p l : List Char) : splitL p l ≠ [] := by
  cases l with
  | nil => simp [splitL_nil]
  | cons c cs =>
    rw [splitL_cons]
    split
    · simp
    · split <;> simp

theorem icalate_consHead (v h : List Char) (c : Char) (t : List (List Char)) :
    icalate v ((c :: h) :: t) = c :: icalate v (h :: t) := by
  cases t <;> simp [icalate]

theorem occursB_nil (p : List Char) : occursB p [] = p.isEmpty := rfl

theorem occursB_cons (p : List Char) (c : Char) (cs : List Char) :
    occursB p (c :: cs) = (p.isPrefixOf (c :: cs) || occursB p cs) := rfl

theorem isPrefixOf_head_ne {a b : Char} (qt l : List Char) (h : ¬ a = b) :
    (a :: qt).isPrefixOf (b :: l) = false := by
  simp [List.isPrefixOf, h]

theorem occursB_iff (p : List Char) : ∀ l, occursB p l = true ↔ ∃ a b, l = a ++ p ++ b
  | [] => by
    rw [occursB_nil]
    constructor
    · intro h
      exact ⟨[], [], by simp [List.isEmpty_iff.mp h]⟩
    · rintro ⟨a, b, h⟩
      have := List.append_eq_nil.mp h.symm
      have := List.append_eq_nil.mp this.1
      simp [List.isEmpty_iff, this.2]
  | c :: cs => by
    rw [occursB_cons]
    constructor
    · intro h
      rcases Bool.or_eq_true_iff.mp h with h | h
      · obtain ⟨t, ht⟩ := List.isPrefixOf_iff_prefix.mp h
        exact ⟨[], t, by simp [ht.symm]⟩
      · obtain ⟨a, b, hab⟩ := (occursB_iff p cs).mp h
        exact ⟨c :: a, b, by simp [hab]⟩
    · rintro ⟨a, b, hab⟩
      cases a with
      | nil =>
        apply Bool.or_eq_true_iff.mpr
        left
        exact List.isPrefixOf_iff_prefix.mpr ⟨b, by simpa using hab.symm⟩
      | cons a0 a' =>
        apply Bool.or_eq_true_iff.mpr
        right
        have h2 : cs = a' ++ p ++ b := by
          have h3 := hab
          simp only [List.cons_append, List.cons.injEq] at h3
          simpa [List.append_assoc] using h3.2
        exact (occursB_iff p cs).mpr ⟨a', b, h2⟩

theorem mem_of_occursB {p l : List Char} {c : Char} (h : occursB p l = true) (hc : c ∈ p) :
    c ∈ l := by
  obtain ⟨a, b, rfl⟩ := (occursB_iff p l).mp h
  simp [hc]

theorem replaceL_eq_icalate_splitL (p v : List Char) :
    ∀ l, replaceL p v l = icalate v (splitL p l)
  | [] => by simp [replaceL_nil, splitL_nil, icalate]
  | c :: cs => by
    rw [replaceL_cons, splitL_cons]
    split
    · cases hs : splitL p (cs.drop (p.length - 1)) with
      | nil => exact absurd hs (splitL_ne_nil p _)
      | cons h' t' =>
        have ih := replaceL_eq_icalate_splitL p v (cs.drop (p.length - 1))
        rw [ih, hs]
        simp [icalate]
    · cases hs : splitL p cs with
      | nil => exact absurd hs (splitL_ne_nil p cs)
      | cons h t =>
        have ih := replaceL_eq_icalate_splitL p v cs
        rw [ih, hs, icalate_consHead]
termination_by l => l.length
decreasing_by
all_goals have hd := List.length_drop (p.length - 1) cs
all_goals simp only [List.length_cons]
all_goals omega

theorem replaceL_self (p : List Char) : ∀ l, replaceL p p l = l
  | [] => rfl
  | c :: cs => by
    rw [replaceL_cons]
    split
    · next hcond =>
      obtain ⟨hne, hpre⟩ := hcond
      obtain ⟨t, ht⟩ := List.isPrefixOf_iff_prefix.mp hpre
      cases p with
      | nil => exact absurd rfl hne
      | cons q qs =>
        rw [List.cons_append] at ht
        have hq : q = c := (List.cons.injEq ..).mp ht |>.1
        have hqs : qs ++ t = cs := (List.cons.injEq ..).mp ht |>.2
        have hdrop : cs.drop ((q :: qs).length - 1) = t := by
          rw [← hqs]
          simp [List.drop_left]
        rw [hdrop, replaceL_self (q :: qs) t, hq, ← hqs]
        simp
    · rw [replaceL_self p cs]
termination_by l => l.length
decreasing_by
· simp only [List.length_cons]
  omega
· have h3 : qs.length + t.length = cs.length := by rw [← hqs]; simp
  simp only [List.length_cons]
  omega

theorem icalate_splitL (p l : List Char) : icalate p (splitL p l) = l := by
  rw [← replaceL_eq_icalate_splitL, replaceL_self]

theorem replaceL_not_occurs (p v : List Char) (hp : p ≠ []) :
    ∀ l, occursB p l = false → replaceL p v l = l
  | [], _ => rfl
  | c :: cs, h => by
    rw [occursB_cons, Bool.or_eq_false_iff] at h
    rw [replaceL_cons, if_neg (fun hcon => by simp [h.1] at hcon)]
    rw [replaceL_not_occurs p v hp cs h.2]

theorem replaceL_append_clean (p v : List Char) :
    ∀ (a m : List Char),
      (∀ a₁ a₂, a = a₁ ++ a₂ → a₂ ≠ [] → p.isPrefixOf (a₂ ++ m) = false) →
      replaceL p v (a ++ m) = a ++ replaceL p v m
  | [], _, _ => by simp
  | c :: a', m, H => by
    have hnp : p.isPrefixOf ((c :: a') ++ m) = false := H [] (c :: a') rfl (by simp)
    rw [List.cons_append, replaceL_cons,
      if_neg (fun hcon => by rw [List.cons_append] at hnp; simp [hnp] at hcon)]
    rw [replaceL_append_clean p v a' m
      (fun a₁ a₂ h hne => H (c :: a₁) a₂ (by rw [h, List.cons_append]) hne)]
    simp

theorem replaceL_dollar_skip (pt v : List Char) (a m : List Char) (ha : '$' ∉ a) :
    replaceL ('$' :: pt) v (a ++ m) = a ++ replaceL ('$' :: pt) v m := by
  apply replaceL_append_clean
  intro a₁ a₂ hsplit hne
  cases a₂ with
  | nil => exact absurd rfl hne
  | cons d t =>
    have hd : d ∈ a := by rw [hsplit]; simp
    rw [List.cons_append]
    exact isPrefixOf_head_ne _ _ (fun h => ha (h ▸ hd))

theorem replaceL_match_head (p v m : List Char) (hp : p ≠ []) :
    replaceL p v (p ++ m) = v ++ replaceL p v m := by
  cases p with
  | nil => exact absurd rfl hp
  | cons q qs =>
    rw [List.cons_append, replaceL_cons,
      if_pos ⟨hp, List.isPrefixOf_iff_prefix.mpr ⟨m, by simp⟩⟩]
    congr 1
    congr 1
    simp [List.drop_left]

theorem replaceL_dollar_icalate (pt v : List Char) (hpt : '$' ∉ pt) :
    ∀ parts, (∀ x ∈ parts, '$' ∉ x) →
      replaceL ('$' :: pt) v (icalate ('$' :: pt) parts) = icalate v parts
  | [], _ => by simp [icalate, replaceL_nil]
  | [x], hx => by
    rw [icalate, icalate]
    cases hocc : occursB ('$' :: pt) x with
    | false => exact replaceL_not_occurs _ v (by simp) x hocc
    | true =>
      exact absurd (mem_of_occursB hocc (by simp)) (hx x (by simp))
  | x :: y :: rest, hx => by
    rw [icalate, icalate, List.append_assoc,
      replaceL_dollar_skip pt v x _ (hx x (by simp)),
      replaceL_match_head _ v _ (by simp),
      replaceL_dollar_icalate pt v hpt (y :: rest) (fun z hz => hx z (by simp [hz]))]
    simp

theorem not_prefix_append {q p : List Char} (m : List Char)
    (h1 : ¬ q <+: p) (h2 : ¬ p <+: q) : ¬ q <+: (p ++ m) := by
  intro h
  rcases le_or_lt q.length p.length with hle | hlt
  · exact h1 (List.prefix_of_prefix_length_le h (List.prefix_append p m) hle)
  · exact h2 (List.prefix_of_prefix_length_le (List.prefix_append p m) h (Nat.le_of_lt hlt))

theorem replaceL_dollar_other (qt pt v : List Char) (hpt : '$' ∉ pt)
    (h1 : ¬ ('$' :: qt) <+: ('$' :: pt)) (h2 : ¬ ('$' :: pt) <+: ('$' :: qt)) :
    ∀ parts, (∀ x ∈ parts, '$' ∉ x) →
      replaceL ('$' :: qt) v (icalate ('$' :: pt) parts) = icalate ('$' :: pt) parts
  | [], _ => by simp [icalate, replaceL_nil]
  | [x], hx => by
    rw [icalate]
    cases hocc : occursB ('$' :: qt) x with
    | false => exact replaceL_not_occurs _ v (by simp) x hocc
    | true =>
      exact absurd (mem_of_occursB hocc (by simp)) (hx x (by simp))
  | x :: y :: rest, hx => by
    rw [icalate, List.append_assoc,
      replaceL_dollar_skip qt v x _ (hx x (by simp))]
    have hnotpre : ('$' :: qt).isPrefixOf (('$' :: pt) ++ icalate ('$' :: pt) (y :: rest)) = false := by
      cases hb : ('$' :: qt).isPrefixOf (('$' :: pt) ++ icalate ('$' :: pt) (y :: rest)) with
      | false => rfl
      | true =>
        exact absurd (List.isPrefixOf_iff_prefix.mp hb)
          (not_prefix_append _ h1 h2)
    rw [List.cons_append, replaceL_cons,
      if_neg (fun hcon => by rw [List.cons_append] at hnotpre; simp [hnotpre] at hcon),
      ← List.cons_append,
      show ('$' :: pt) ++ icalate ('$' :: pt) (y :: rest)
          = '$' :: (pt ++ icalate ('$' :: pt) (y :: rest)) by simp]
    rw [replaceL_dollar_skip qt v pt _ hpt,
      replaceL_dollar_other qt pt v hpt h1 h2 (y :: rest) (fun z hz => hx z (by simp [hz]))]

theorem splitL_head_prefix (p : List Char) : ∀ l, ∃ h t, splitL p l = h :: t ∧ h <+: l
  | [] => ⟨[], [], by simp [splitL_nil]⟩
  | c :: cs => by
    rw [splitL_cons]
    split
    · exact ⟨[], _, rfl, List.nil_prefix⟩
    · obtain ⟨h, t, hs, hp⟩ := splitL_head_prefix p cs
      rw [hs]
      exact ⟨c :: h, t, rfl, List.cons_prefix_cons.mpr ⟨rfl, hp⟩⟩

theorem splitL_parts_not_occurs (p : List Char) (hp : p ≠ []) :
    ∀ l x, x ∈ splitL p l → occursB p x = false
  | [], x => by
    rw [splitL_nil]
    intro hx
    rw [List.mem_singleton.mp hx, occursB_nil]
    simpa [List.isEmpty_iff] using hp
  | c :: cs, x => by
    rw [splitL_cons]
    split
    · next hcond =>
      intro hx
      rcases List.mem_cons.mp hx with rfl | hx'
      · rw [occursB_nil]
        simpa [List.isEmpty_iff] using hp
      · exact splitL_parts_not_occurs p hp (cs.drop (p.length - 1)) x hx'
    · next hcond =>
      intro hx
      obtain ⟨h', t', hs, hpre⟩ := splitL_head_prefix p cs
      rw [hs] at hx
      rcases List.mem_cons.mp hx with rfl | hx'
      · rw [occursB_cons, Bool.or_eq_false_iff]
        refine ⟨?_, splitL_parts_not_occurs p hp cs h' (by rw [hs]; simp)⟩
        cases hb : p.isPrefixOf (c :: h') with
        | false => rfl
        | true =>
          have h1 : p <+: c :: cs :=
            (List.isPrefixOf_iff_prefix.mp hb).trans (List.cons_prefix_cons.mpr ⟨rfl, hpre⟩)
          exact absurd ⟨hp, List.isPrefixOf_iff_prefix.mpr h1⟩ hcond
      · exact splitL_parts_not_occurs p hp cs x (by rw [hs]; simp [hx'])
termination_by l => l.length
decreasing_by
all_goals have hd := List.length_drop (p.length - 1) cs
all_goals simp only [List.length_cons]
all_goals omega

theorem splitL_tail (p : List Char) :
    ∀ l x xs, splitL p l = x :: xs → xs = [] ∨ ∃ m, xs = splitL p m
  | [], x, xs => by
    rw [splitL_nil]
    intro h
    left
    exact ((List.cons.injEq ..).mp h).2.symm
  | c :: cs, x, xs => by
    rw [splitL_cons]
    split
    · intro h
      right
      exact ⟨cs.drop (p.length - 1), ((List.cons.injEq ..).mp h).2.symm⟩
    · cases hsp : splitL p cs with
      | nil => exact absurd hsp (splitL_ne_nil p cs)
      | cons h t =>
        intro heq
        have ht : xs = t := ((List.cons.injEq ..).mp heq).2.symm
        rcases splitL_tail p cs h t hsp with h1 | h1
        · left; rw [ht, h1]
        · right; rw [ht]; exact h1

theorem splitL_two_of_occurs (p : List Char) (hp : p ≠ []) :
    ∀ l, occursB p l = true → ∃ x y rest, splitL p l = x :: y :: rest
  | [], hocc => by
    rw [occursB_nil] at hocc
    exact absurd (List.isEmpty_iff.mp hocc) hp
  | c :: cs, hocc => by
    rw [splitL_cons]
    split
    · obtain ⟨h', t', hs, _⟩ := splitL_head_prefix p (cs.drop (p.length - 1))
      exact ⟨[], h', t', by rw [hs]⟩
    · next hcond =>
      rw [occursB_cons, Bool.or_eq_true_iff] at hocc
      rcases hocc with hb | hb
      · exact absurd ⟨hp, hb⟩ hcond
      · obtain ⟨x, y, rest, hs⟩ := splitL_two_of_occurs p hp cs hb
        rw [hs]
        exact ⟨c :: x, y, rest, rfl⟩

theorem replaceFirstL_split (p v : List Char) :
    ∀ l x y rest, splitL p l = x :: y :: rest →
      replaceFirstL p v l = x ++ v ++ icalate p (y :: rest)
  | [], x, y, rest => by
    rw [splitL_nil]
    intro h
    exact absurd ((List.cons.injEq ..).mp h).2.symm (by simp)
  | c :: cs, x, y, rest => by
    by_cases hc : p ≠ [] ∧ p.isPrefixOf (c :: cs)
    · rw [splitL_cons, if_pos hc, replaceFirstL, if_pos hc]
      intro heq
      have hx : x = [] := ((List.cons.injEq ..).mp heq).1.symm
      have hys : splitL p (cs.drop (p.length - 1)) = y :: rest := ((List.cons.injEq ..).mp heq).2
      have hdrop : (c :: cs).drop p.length = cs.drop (p.length - 1) := by
        cases p with
        | nil => exact absurd rfl hc.1
        | cons q qs => simp
      rw [hdrop, hx, ← hys, icalate_splitL]
      simp
    · rw [splitL_cons, if_neg hc, replaceFirstL, if_neg hc]
      cases hsp : splitL p cs with
      | nil => exact absurd hsp (splitL_ne_nil p cs)
      | cons h t =>
        intro heq
        have hx : x = c :: h := ((List.cons.injEq ..).mp heq).1.symm
        have ht : t = y :: rest := ((List.cons.injEq ..).mp heq).2
        rw [ht] at hsp
        rw [replaceFirstL_split p v cs h y rest hsp, hx]
        simp

/-- Cleanliness of `x ++ r` for the two-ampersand pattern: provided `x`
contains no `&&` and `r` is nonempty and ampersand-free, no suffix of
`x ++ r` starts an occurrence of `&&`, whatever follows. -/
theorem amp_clean (m : List Char) :
    ∀ (x : List Char) (r : List Char), occursB ['&', '&'] x = false → '&' ∉ r → r ≠ [] →
      ∀ a₁ a₂, x ++ r = a₁ ++ a₂ → a₂ ≠ [] →
        (['&', '&'] : List Char).isPrefixOf (a₂ ++ m) = false
  | [], r, _, hr, _, a₁, a₂, hsplit, hne => by
    cases a₂ with
    | nil => exact absurd rfl hne
    | cons d t =>
      have hd : d ∈ r := by rw [List.nil_append] at hsplit; rw [hsplit]; simp
      rw [List.cons_append]
      exact isPrefixOf_head_ne _ _ (fun h => hr (h ▸ hd))
  | c :: x', r, hx, hr, hrne, a₁, a₂, hsplit, hne => by
    cases a₁ with
    | nil =>
      rw [List.nil_append] at hsplit
      subst hsplit
      simp only [List.cons_append, List.append_assoc]
      by_cases hc : c = '&'
      · subst hc
        cases x' with
        | nil =>
          cases r with
          | nil => exact absurd rfl hrne
          | cons rh rt =>
            simp only [List.nil_append, List.cons_append]
            have hb : ('&' == rh) = false :=
              beq_eq_false_iff_ne.mpr (fun h => hr (by rw [h]; exact List.mem_cons_self rh rt))
            simp [List.isPrefixOf, hb]
        | cons d x'' =>
          by_cases hd : d = '&'
          · subst hd
            exfalso
            have hocc2 : occursB ['&', '&'] ('&' :: '&' :: x'') = true := by
              rw [occursB_cons, Bool.or_eq_true_iff]
              left
              simp [List.isPrefixOf]
            rw [hocc2] at hx
            exact absurd hx (by simp)
          · simp only [List.cons_append]
            have hb : ('&' == d) = false := beq_eq_false_iff_ne.mpr (fun h => hd h.symm)
            simp [List.isPrefixOf, hb]
      · exact isPrefixOf_head_ne _ _ (fun h => hc h.symm)
    | cons a0 a₁' =>
      have htail : x' ++ r = a₁' ++ a₂ := by
        rw [List.cons_append] at hsplit
        exact ((List.cons.injEq ..).mp hsplit).2
      have hx' : occursB ['&', '&'] x' = false := by
        rw [occursB_cons, Bool.or_eq_false_iff] at hx
        exact hx.2
      exact amp_clean m x' r hx' hr hrne a₁' a₂ htail hne

/-- The `&&`-chain rewrite of `changeExecutorFromCmdToPs`: replacing the
first `&&` by `r1` and then every remaining `&&` by `r2` produces the
split-and-rejoin form `x ++ r1 ++ icalate r2 xs`, i.e. the first
occurrence becomes `r1` and every subsequent one becomes `r2`. -/
theorem amp_first_then_all (e r1 r2 : List Char)
    (h1 : '&' ∉ r1) (h2 : r1 ≠ []) (hocc : occursB ['&', '&'] e = true) :
    ∀ x xs, splitL ['&', '&'] e = x :: xs →
      replaceL ['&', '&'] r2 (replaceFirstL ['&', '&'] r1 e) = x ++ r1 ++ icalate r2 xs := by
  obtain ⟨x0, y0, rest0, hs⟩ := splitL_two_of_occurs _ (by simp) e hocc
  intro x xs heq
  rw [hs] at heq
  have hx : x = x0 := ((List.cons.injEq ..).mp heq).1.symm
  have hxs : xs = y0 :: rest0 := ((List.cons.injEq ..).mp heq).2.symm
  subst hx
  subst hxs
  rw [replaceFirstL_split _ _ e x y0 rest0 hs]
  have hxfree : occursB ['&', '&'] x = false :=
    splitL_parts_not_occurs _ (by simp) e x (by rw [hs]; simp)
  rw [List.append_assoc x r1, ← List.append_assoc x r1,
    replaceL_append_clean _ _ (x ++ r1) _
      (amp_clean _ x r1 hxfree h1 h2)]
  obtain ⟨m, hm⟩ : ∃ m, y0 :: rest0 = splitL ['&', '&'] m := by
    rcases splitL_tail _ e x (y0 :: rest0) hs with h | h
    · exact absurd h (by simp)
    · exact h
  rw [hm, icalate_splitL, replaceL_eq_icalate_splitL, ← hm]

/-! ### Facts about `lastSplitBy`, `sepThenDot` and `jsTrimL` -/

theorem lastSplitBy_none_iff (f : Char → Bool) :
    ∀ l, lastSplitBy f l = none ↔ l.any f = false
  | [] => by simp [lastSplitBy]
  | c :: cs => by
    rw [lastSplitBy, List.any_cons]
    cases h : lastSplitBy f cs with
    | some ab =>
      obtain ⟨a, b⟩ := ab
      have h2 : cs.any f = true := by
        cases hany : cs.any f with
        | true => rfl
        | false =>
          rw [(lastSplitBy_none_iff f cs).mpr hany] at h
          exact Option.noConfusion h
      simp [h2]
    | none =>
      have h2 : cs.any f = false := (lastSplitBy_none_iff f cs).mp h
      rw [h2]
      by_cases hc : f c = true
      · simp [hc]
      · simp [hc, Bool.eq_false_iff.mpr hc]

theorem lastSplitBy_any_of_some {f : Char → Bool} {l : List Char}
    {ab : List Char × List Char} (h : lastSplitBy f l = some ab) : l.any f = true := by
  cases hany : l.any f with
  | true => rfl
  | false =>
    rw [(lastSplitBy_none_iff f l).mpr hany] at h
    exact Option.noConfusion h

theorem lastSplitBy_fst_ne_nil (f : Char → Bool) :
    ∀ l a b, lastSplitBy f l = some (a, b) → a ≠ []
  | [], a, b => by simp [lastSplitBy]
  | c :: cs, a, b => by
    rw [lastSplitBy]
    cases h : lastSplitBy f cs with
    | some ab =>
      obtain ⟨a', b'⟩ := ab
      intro heq
      have := ((Option.some.injEq ..).mp heq)
      have ha : a = c :: a' := ((Prod.mk.injEq ..).mp this).1.symm
      simp [ha]
    | none =>
      by_cases hc : f c = true
      · rw [if_pos hc]
        intro heq
        have := ((Option.some.injEq ..).mp heq)
        have ha : a = [c] := ((Prod.mk.injEq ..).mp this).1.symm
        simp [ha]
      · rw [if_neg hc]
        exact fun heq => Option.noConfusion heq

theorem sepThenDot_no_dot : ∀ l : List Char, l.any isDotChar = false → sepThenDot l = false
  | [], _ => rfl
  | c :: cs, h => by
    rw [List.any_cons, Bool.or_eq_false_iff] at h
    rw [sepThenDot, h.2, sepThenDot_no_dot cs h.2]
    simp

/-- The stem regex succeeds exactly when some separator is followed
(anywhere later) by a dot. -/
theorem stemSplit_isSome_iff_sepThenDot : ∀ l, (stemSplit l).isSome = sepThenDot l
  | [] => rfl
  | c :: cs => by
    rw [sepThenDot]
    cases h : lastSplitBy isDotChar cs with
    | some ab =>
      obtain ⟨a, b⟩ := ab
      have hane : a ≠ [] := lastSplitBy_fst_ne_nil isDotChar cs a b h
      have hanydot : cs.any isDotChar = true := lastSplitBy_any_of_some h
      have houter : lastSplitBy isDotChar (c :: cs) = some (c :: a, b) := by
        rw [lastSplitBy, h]
      obtain ⟨a0, a', rfl⟩ : ∃ a0 a', a = a0 :: a' := by
        cases a with
        | nil => exact absurd rfl hane
        | cons a0 a' => exact ⟨a0, a', rfl⟩
      have hdl : (c :: a0 :: a').dropLast = c :: (a0 :: a').dropLast := List.dropLast_cons₂ ..
      simp only [stemSplit, houter, hdl]
      rw [lastSplitBy]
      cases h2 : lastSplitBy isSepChar ((a0 :: a').dropLast) with
      | some ab2 =>
        obtain ⟨a2, b2⟩ := ab2
        have hstemcs : (stemSplit cs).isSome = true := by
          simp only [stemSplit, h, h2, Option.isSome_some]
        rw [stemSplit_isSome_iff_sepThenDot cs] at hstemcs
        simp [hstemcs]
      | none =>
        by_cases hsep : isSepChar c = true
        · simp [hsep, hanydot]
        · have hsep' : isSepChar c = false := by simpa using hsep
          have hstemcs : (stemSplit cs).isSome = false := by
            simp only [stemSplit, h, h2, Option.isSome_none]
          rw [stemSplit_isSome_iff_sepThenDot cs] at hstemcs
          simp [hsep', hstemcs]
    | none =>
      have hcs : cs.any isDotChar = false := (lastSplitBy_none_iff isDotChar cs).mp h
      have hstd : sepThenDot cs = false := sepThenDot_no_dot cs hcs
      have houter : lastSplitBy isDotChar (c :: cs) =
          if isDotChar c then some ([c], cs) else none := by
        rw [lastSplitBy, h]
      by_cases hdot : isDotChar c = true
      · have hnone : stemSplit (c :: cs) = none := by
          simp only [stemSplit, houter, if_pos hdot, List.dropLast_single]
          rfl
        rw [hnone, hstd]
        simp [hcs]
      · have hnone : stemSplit (c :: cs) = none := by
          simp only [stemSplit, houter, if_neg hdot]
        rw [hnone, hstd]
        simp [hcs]

theorem dropWhile_head?_false (p : Char → Bool) :
    ∀ (l : List Char) (c : Char), (l.dropWhile p).head? = some c → p c = false
  | [], c => by simp
  | d :: ds, c => by
    rw [List.dropWhile_cons]
    by_cases hd : p d = true
    · rw [if_pos hd]
      exact dropWhile_head?_false p ds c
    · rw [if_neg hd]
      intro h
      have hdc : d = c := by simpa using h
      subst hdc
      simpa using hd

theorem trim_getLast?_false (l : List Char) (c : Char)
    (h : (jsTrimL l).getLast? = some c) : isJsWs c = false := by
  rw [jsTrimL, List.getLast?_reverse] at h
  exact dropWhile_head?_false isJsWs _ c h

theorem trim_head?_false (l : List Char) (c : Char)
    (h : (jsTrimL l).head? = some c) : isJsWs c = false := by
  rw [jsTrimL, List.head?_reverse] at h
  have hBne : (l.dropWhile isJsWs).reverse.dropWhile isJsWs ≠ [] := by
    intro hb
    rw [hb] at h
    simp at h
  have hsplit : (l.dropWhile isJsWs).reverse.takeWhile isJsWs ++
      (l.dropWhile isJsWs).reverse.dropWhile isJsWs = (l.dropWhile isJsWs).reverse :=
    List.takeWhile_append_dropWhile ..
  have h2 : (l.dropWhile isJsWs).reverse.getLast? = some c := by
    rw [← hsplit, List.getLast?_append_of_ne_nil _ hBne]
    exact h
  rw [List.getLast?_reverse] at h2
  exact dropWhile_head?_false isJsWs l c h2

theorem jsTrimL_eq_self (l : List Char)
    (h1 : ∀ c, l.head? = some c → isJsWs c = false)
    (h2 : ∀ c, l.getLast? = some c → isJsWs c = false) : jsTrimL l = l := by
  cases l with
  | nil => rfl
  | cons c cs =>
    have hc : isJsWs c = false := h1 c rfl
    rw [jsTrimL, List.dropWhile_cons, if_neg (by simp [hc])]
    have hrev : (c :: cs).reverse.dropWhile isJsWs = (c :: cs).reverse := by
      cases hr : (c :: cs).reverse with
      | nil => simp at hr
      | cons d ds =>
        have hd : (c :: cs).getLast? = some d := by
          rw [← List.head?_reverse, hr]
          rfl
        rw [List.dropWhile_cons, if_neg (by simp [h2 d hd])]
    rw [hrev, List.reverse_reverse]

theorem jsTrimL_idem (l : List Char) : jsTrimL (jsTrimL l) = jsTrimL l :=
  jsTrimL_eq_self _ (trim_head?_false l) (trim_getLast?_false l)


/-! ### Supporting facts about the three match helpers -/

theorem stemMatchArr_isSome_eq (s : String) :
    (stemMatchArr s).isSome = (stemSplit s.data).isSome := by
  cases h1 : lastSplitBy isDotChar s.data with
  | none => simp [stemMatchArr, stemSplit, h1]
  | some pdb =>
    obtain ⟨pd, b⟩ := pdb
    cases h2 : lastSplitBy isSepChar pd.dropLast with
    | none => simp [stemMatchArr, stemSplit, h1, h2]
    | some ab2 =>
      obtain ⟨a2, b2⟩ := ab2
      simp [stemMatchArr, stemSplit, h1, h2]

theorem sepThenDot_no_sep : ∀ l : List Char, l.any isSepChar = false → sepThenDot l = false
  | [], _ => rfl
  | c :: cs, h => by
    rw [List.any_cons, Bool.or_eq_false_iff] at h
    rw [sepThenDot, h.1, sepThenDot_no_sep cs h.2]
    simp

theorem getCodeBaseFile_error_of_no_sep (s : String) (h : s.data.any isSepChar = false) :
    getCodeBaseFile s = .error .nullMatch := by
  have hnone : lastSplitBy isSepChar s.data = none := (lastSplitBy_none_iff _ _).mpr h
  simp [getCodeBaseFile, baseMatchArr, hnone]

theorem getCodeFileDir_error_of_no_sep (s : String) (h : s.data.any isSepChar = false) :
    getCodeFileDir s = .error .nullMatch := by
  have hnone : lastSplitBy isSepChar s.data = none := (lastSplitBy_none_iff _ _).mpr h
  simp [getCodeFileDir, dirMatchArr, hnone]

theorem stem_error_of_not_sepThenDot (s : String) (h : sepThenDot s.data = false) :
    getCodeFileWithoutDirAndExt s = .error .nullMatch := by
  have h2 : (stemMatchArr s).isSome = false := by
    rw [stemMatchArr_isSome_eq, stemSplit_isSome_iff_sepThenDot, h]
  have h3 : stemMatchArr s = none := Option.not_isSome_iff_eq_none.mp (by simp [h2])
  simp [getCodeFileWithoutDirAndExt, h3]

theorem baseMatchArr_length (s : String) (arr : List String)
    (h : baseMatchArr s = some arr) : arr.length = 2 := by
  simp only [baseMatchArr] at h
  cases h1 : lastSplitBy isSepChar s.data with
  | none => rw [h1] at h; exact Option.noConfusion h
  | some ab =>
    obtain ⟨a, b⟩ := ab
    rw [h1] at h
    have harr : arr = [⟨a ++ b⟩, ⟨b⟩] := ((Option.some.injEq ..).mp h).symm
    simp [harr]

theorem dirMatchArr_length (s : String) (arr : List String)
    (h : dirMatchArr s = some arr) : arr.length = 2 := by
  simp only [dirMatchArr] at h
  cases h1 : lastSplitBy isSepChar s.data with
  | none => rw [h1] at h; exact Option.noConfusion h
  | some ab =>
    obtain ⟨a, b⟩ := ab
    rw [h1] at h
    have harr : arr = [⟨a ++ b⟩, ⟨a⟩] := ((Option.some.injEq ..).mp h).symm
    simp [harr]

theorem stemMatchArr_length (s : String) (arr : List String)
    (h : stemMatchArr s = some arr) : arr.length = 2 := by
  simp only [stemMatchArr] at h
  cases h1 : lastSplitBy isDotChar s.data with
  | none => simp [h1] at h
  | some pdb =>
    obtain ⟨pd, b⟩ := pdb
    simp only [h1] at h
    cases h2 : lastSplitBy isSepChar pd.dropLast with
    | none => simp [h2] at h
    | some ab2 =>
      obtain ⟨a2, b2⟩ := ab2
      simp only [h2] at h
      have harr : arr = [⟨a2 ++ b2⟩, ⟨b2⟩] := ((Option.some.injEq ..).mp h).symm
      simp [harr]

/-! ### Claims -/

/-- C10 (amended): the path helpers are partial — for every path without
a `/` or `\` separator all three throw on the `null` match; the stem
helper throws exactly when no separator has a dot after it (for a path
with a separator before its last dot the match backtracks and succeeds
even if the final segment has no dot); and whenever a match succeeds the
2-element match array is truthy, so the result is the capture and the
fall-back branch returning the unmodified path is unreachable. -/
theorem c10_path_helpers_throwing :
    (∀ s : String, s.data.any isSepChar = false →
      getCodeBaseFile s = .error .nullMatch ∧
      getCodeFileDir s = .error .nullMatch ∧
      getCodeFileWithoutDirAndExt s = .error .nullMatch)
    ∧ (∀ s : String, sepThenDot s.data = false →
      getCodeFileWithoutDirAndExt s = .error .nullMatch)
    ∧ (∀ s : String, sepThenDot s.data = true →
      ∃ r, getCodeFileWithoutDirAndExt s = .ok r)
    ∧ (∀ s arr, baseMatchArr s = some arr →
      arr.length ≠ 0 ∧ getCodeBaseFile s = .ok (arr.getD 1 ""))
    ∧ (∀ s arr, dirMatchArr s = some arr →
      arr.length ≠ 0 ∧ getCodeFileDir s = .ok (arr.getD 1 ""))
    ∧ (∀ s arr, stemMatchArr s = some arr →
      arr.length ≠ 0 ∧ getCodeFileWithoutDirAndExt s = .ok (arr.getD 1 "")) := by
  refine ⟨?_, ?_, ?_, ?_, ?_, ?_⟩
  · intro s h
    exact ⟨getCodeBaseFile_error_of_no_sep s h, getCodeFileDir_error_of_no_sep s h,
      stem_error_of_not_sepThenDot s (sepThenDot_no_sep s.data h)⟩
  · exact stem_error_of_not_sepThenDot
  · intro s h
    have h2 : (stemMatchArr s).isSome = true := by
      rw [stemMatchArr_isSome_eq, stemSplit_isSome_iff_sepThenDot, h]
    obtain ⟨arr, harr⟩ := Option.isSome_iff_exists.mp h2
    have hlen : arr.length = 2 := stemMatchArr_length s arr harr
    refine ⟨arr.getD 1 "", ?_⟩
    simp [getCodeFileWithoutDirAndExt, harr, hlen]
  · intro s arr harr
    have hlen : arr.length = 2 := baseMatchArr_length s arr harr
    constructor
    · simp [hlen]
    · simp [getCodeBaseFile, harr, hlen]
  · intro s arr harr
    have hlen : arr.length = 2 := dirMatchArr_length s arr harr
    constructor
    · simp [hlen]
    · simp [getCodeFileDir, harr, hlen]
  · intro s arr harr
    have hlen : arr.length = 2 := stemMatchArr_length s arr harr
    constructor
    · simp [hlen]
    · simp [getCodeFileWithoutDirAndExt, harr, hlen]

/-- C10 counterexample: `"/a.b/c"` has a separator and its final segment
`"c"` has no dot, yet `getCodeFileWithoutDirAndExt` does not throw — the
regex backtracks to the separator before `"a.b"` and returns `"a"`. -/
theorem c10_stem_backtrack_cex :
    getCodeFileWithoutDirAndExt "/a.b/c" = Except.ok "a" ∧
    "/a.b/c".data.any isSepChar = true ∧
    (match lastSplitBy isSepChar "/a.b/c".data with
      | some (_, b) => b.any isDotChar
      | none => true) = false := by
  refine ⟨rfl, by decide, by decide⟩

/-- C10 witness: a separator-free path makes the base helper throw, a
path whose single segment after the separators has no dot anywhere after
a separator makes the stem helper throw, and a well-formed path yields
its stem. -/
theorem c10_path_helpers_throwing_witness :
    getCodeBaseFile "ab" = .error .nullMatch ∧
    getCodeFileWithoutDirAndExt "/a/b" = .error .nullMatch ∧
    getCodeFileWithoutDirAndExt "/a/b.c" = .ok (["/a/b", "b"].getD 1 "") :=
  ⟨(c10_path_helpers_throwing.1 "ab" (by decide)).1,
   c10_path_helpers_throwing.2.1 "/a/b" (by decide),
   (c10_path_helpers_throwing.2.2.2.2.2 "/a/b.c" ["/a/b", "b"] (by decide)).2⟩

/-- C2: `getExecutor` resolution — a configured (non-null) entry for the
effective language id is returned as-is; on a miss with a non-empty file
extension the extension map is consulted and a hit adopts the extension
as the effective language id; when both miss, `executorMap` is read at
`defaultLanguage`, which is adopted as the effective language id (so a
third miss returns the null executor). -/
theorem c2_getExecutor_resolution
    (em exm : String → Option String) (dl : String) (lp : Option String)
    (al ext : String) :
    (∀ t, em (lp.getD al) = some t →
      getExecutor em exm dl lp al ext = (lp.getD al, some t))
    ∧ (em (lp.getD al) = none → ext ≠ "" → ∀ t, exm ext = some t →
      getExecutor em exm dl lp al ext = (ext, some t))
    ∧ (em (lp.getD al) = none → (ext = "" ∨ exm ext = none) →
      getExecutor em exm dl lp al ext = (dl, em dl)) := by
  cases lp with
  | none =>
    refine ⟨?_, ?_, ?_⟩
    · intro t h
      simp only [Option.getD_none] at h ⊢
      simp [getExecutor, h]
    · intro h1 h2 t h3
      simp only [Option.getD_none] at h1
      simp [getExecutor, h1, h2, h3]
    · intro h1 h2
      simp only [Option.getD_none] at h1
      rcases h2 with h2 | h2
      · simp [getExecutor, h1, h2]
      · by_cases hext : ext = ""
        · simp [getExecutor, h1, hext]
        · simp [getExecutor, h1, hext, h2]
  | some l =>
    refine ⟨?_, ?_, ?_⟩
    · intro t h
      simp only [Option.getD_some] at h ⊢
      simp [getExecutor, h]
    · intro h1 h2 t h3
      simp only [Option.getD_some] at h1
      simp [getExecutor, h1, h2, h3]
    · intro h1 h2
      simp only [Option.getD_some] at h1
      rcases h2 with h2 | h2
      · simp [getExecutor, h1, h2]
      · by_cases hext : ext = ""
        · simp [getExecutor, h1, hext]
        · simp [getExecutor, h1, hext, h2]

/-- C2 witness: a configured language id, an extension-map fallback, and
the full triple miss. -/
theorem c2_getExecutor_resolution_witness :
    getExecutor (fun l => if l = "python" then some "python -u" else none) (fun _ => none)
      "js" none "python" ".py" = ("python", some "python -u") ∧
    getExecutor (fun _ => none) (fun e => if e = ".go" then some "go run" else none)
      "js" none "cpp" ".go" = (".go", some "go run") ∧
    getExecutor (fun _ => none) (fun _ => none) "js" none "cpp" ".go" = ("js", none) :=
  ⟨(c2_getExecutor_resolution (fun l => if l = "python" then some "python -u" else none)
      (fun _ => none) "js" none "python" ".py").1 "python -u" rfl,
   (c2_getExecutor_resolution (fun _ => none)
      (fun e => if e = ".go" then some "go run" else none) "js" none "cpp" ".go").2.1
      rfl (by decide) "go run" rfl,
   (c2_getExecutor_resolution (fun _ => none) (fun _ => none) "js" none "cpp" ".go").2.2
      rfl (Or.inr rfl)⟩

/-- C7: the guard at the top of `run()` rejects re-entry only while
`_isRunning` is already set, but the flag is set only when
`executeCommandInOutputChannel` spawns; with a save-before-run option
enabled, two invocations can both pass the guard before either save
continuation spawns, and the trace
invoke, invoke, saveDone, saveDone leaves two child processes alive at
once — the at-most-one-Running invariant fails.  Without the async save
gap the second synchronous invocation is rejected and only one process
exists. -/
theorem c7_double_run_trace :
    (runTrace true [RunnerEv.invokeRun, RunnerEv.invokeRun, RunnerEv.saveDone,
      RunnerEv.saveDone]).activeProcs = 2 ∧
    (runTrace false [RunnerEv.invokeRun, RunnerEv.invokeRun]).activeProcs = 1 :=
  ⟨rfl, rfl⟩

/-- C8: `stop()` with the session Running clears the flag immediately
(no waiting on the exit report), kills the tracked process, and a second
`stop` right after — or any `stop` while not Running — is a no-op. -/
theorem c8_stop_forces_idle (saveBeforeRun : Bool) (s : RunnerState) :
    (s.isRunning = true →
      (runnerStep saveBeforeRun s .stopCmd).isRunning = false ∧
      (runnerStep saveBeforeRun s .stopCmd).activeProcs = s.activeProcs - 1 ∧
      runnerStep saveBeforeRun (runnerStep saveBeforeRun s .stopCmd) .stopCmd =
        runnerStep saveBeforeRun s .stopCmd)
    ∧ (s.isRunning = false → runnerStep saveBeforeRun s .stopCmd = s) := by
  obtain ⟨run, pend, procs⟩ := s
  cases run with
  | true => exact ⟨fun _ => ⟨rfl, rfl, rfl⟩, fun h => Bool.noConfusion h⟩
  | false => exact ⟨fun h => Bool.noConfusion h, fun _ => rfl⟩

/-- C8 witness: stopping a running session with one live process, and a
stop on an idle session. -/
theorem c8_stop_forces_idle_witness :
    (runnerStep false ⟨true, 0, 1⟩ .stopCmd).isRunning = false ∧
    runnerStep false ⟨false, 0, 0⟩ .stopCmd = ⟨false, 0, 0⟩ :=
  ⟨((c8_stop_forces_idle false ⟨true, 0, 1⟩).1 rfl).1,
   (c8_stop_forces_idle false ⟨false, 0, 0⟩).2 rfl⟩

/-- C4 counterexample: `(0.5).toString(36)` is `"0.i"`, whose lowercase
letters, truncated to 10, form the single character `"i"` — the random
suffix is not always exactly 10 characters long. -/
theorem c4_rndName_short_cex :
    rndNameFrom "0.i" = "i" ∧ ("i" : String).length ≠ 10 :=
  ⟨rfl, by decide⟩

/-- C4 (amended): the temporary file name is `"temp"`, then a random
suffix of AT MOST 10 lowercase alphabetic characters (exactly 10 only
when the random source has that many letters), then an extension chosen
by: the language→extension map entry when the effective language id and
the entry are truthy, else the original file's extension when
non-empty, else a dot followed by the language id. -/
theorem c4_tmp_file_name (extMap : String → Option String)
    (languageId fileExtension rndSrc : String) :
    tmpFileNameFor extMap languageId fileExtension rndSrc =
      "temp" ++ rndNameFrom rndSrc ++ chooseFileType extMap languageId fileExtension
    ∧ (rndNameFrom rndSrc).length ≤ 10
    ∧ (∀ c ∈ (rndNameFrom rndSrc).data, isLowerAlpha c = true)
    ∧ (∀ t, languageId ≠ "" → extMap languageId = some t → t ≠ "" →
      chooseFileType extMap languageId fileExtension = t)
    ∧ ((extMap languageId = none ∨ extMap languageId = some "" ∨ languageId = "") →
      fileExtension ≠ "" → chooseFileType extMap languageId fileExtension = fileExtension)
    ∧ ((extMap languageId = none ∨ extMap languageId = some "" ∨ languageId = "") →
      fileExtension = "" → chooseFileType extMap languageId fileExtension = "." ++ languageId) := by
  refine ⟨rfl, ?_, ?_, ?_, ?_, ?_⟩
  · exact List.length_take_le 10 _
  · intro c hc
    have hc2 : c ∈ rndSrc.data.filter isLowerAlpha := List.take_subset 10 _ hc
    exact (List.mem_filter.mp hc2).2
  · intro t hlang hmap ht
    simp [chooseFileType, hmap, hlang, ht]
  · intro hmiss hext
    rcases hmiss with h | h | h
    · simp [chooseFileType, h, hext]
    · simp [chooseFileType, h, hext]
    · cases hm : extMap languageId with
      | none => simp [chooseFileType, hm, hext]
      | some t =>
        rw [h] at hm
        simp [chooseFileType, hm, h, hext]
  · intro hmiss hext
    rcases hmiss with h | h | h
    · simp [chooseFileType, h, hext]
    · simp [chooseFileType, h, hext]
    · cases hm : extMap languageId with
      | none => simp [chooseFileType, hm, hext]
      | some t =>
        rw [h] at hm
        simp [chooseFileType, hm, h, hext]

/-- C4 witness: a configured map entry wins over the original extension,
and the random suffix length bound at a concrete random source. -/
theorem c4_tmp_file_name_witness :
    chooseFileType (fun l => if l = "python" then some ".py" else none) "python" ".txt" = ".py" ∧
    (rndNameFrom "0.k3jqx").length ≤ 10 :=
  ⟨(c4_tmp_file_name (fun l => if l = "python" then some ".py" else none)
      "python" ".txt" "0.k3jqx").2.2.2.1 ".py" (by decide) rfl (by decide),
   (c4_tmp_file_name (fun l => if l = "python" then some ".py" else none)
      "python" ".txt" "0.k3jqx").2.1⟩

/-- C9 counterexample: with a configured terminal root but NO configured
shell name, the command is returned untouched instead of being rewritten
to `<terminalRoot><lowercase-drive>/...` — the terminal-root branch also
requires a truthy configured shell. -/
theorem c9_terminal_root_requires_shell_cex :
    changeFilePathForBashOnWindows true none (some "/x/") "C:\\a" = "C:\\a" ∧
    ("C:\\a" : String) ≠ "/x/c/a" :=
  ⟨rfl, by decide⟩

/-- C9 (amended): on a Windows host, when BOTH a shell name and a
terminal root are configured (truthy), every `X:\` becomes
`<terminalRoot><lowercase-drive>/` and remaining backslashes become
slashes; otherwise, when the shell is a Bash-on-Windows shell, the
`/mnt/<lowercase-drive>/` form applies; exactly one branch applies, and
with neither condition (or off Windows) the command is untouched. -/
theorem c9_bash_path_adapter (windowsShell terminalRoot : Option String) (command : String) :
    (optTruthy windowsShell = true → optTruthy terminalRoot = true →
      changeFilePathForBashOnWindows true windowsShell terminalRoot command =
        ⟨slashify (driveRewriteL (terminalRoot.getD "").data command.data)⟩)
    ∧ (optTruthy terminalRoot = false → bashOnWindowsShell windowsShell = true →
      changeFilePathForBashOnWindows true windowsShell terminalRoot command =
        ⟨slashify (driveRewriteL "/mnt/".data command.data)⟩)
    ∧ ((optTruthy windowsShell = false ∨ optTruthy terminalRoot = false) →
      bashOnWindowsShell windowsShell = false →
      changeFilePathForBashOnWindows true windowsShell terminalRoot command = command)
    ∧ (∀ wsh troot, changeFilePathForBashOnWindows false wsh troot command = command) := by
  refine ⟨?_, ?_, ?_, ?_⟩
  · intro h1 h2
    simp [changeFilePathForBashOnWindows, h1, h2]
  · intro h1 h2
    simp [changeFilePathForBashOnWindows, h1, h2]
  · intro h1 h2
    rcases h1 with h1 | h1 <;> simp [changeFilePathForBashOnWindows, h1, h2]
  · intro wsh troot
    simp [changeFilePathForBashOnWindows]

/-- C9 witness: the Bash-on-Windows branch translates a drive-letter
path for a concrete shell name and command. -/
theorem c9_bash_path_adapter_witness :
    changeFilePathForBashOnWindows true (some "C:\\bash on windows") none
      "C:\\Users\\me\\a.py" = "/mnt/c/Users/me/a.py" := by
  have h := (c9_bash_path_adapter (some "C:\\bash on windows") none "C:\\Users\\me\\a.py").2.1
    rfl (by decide)
  rw [h]
  decide


theorem data_ne_nil_of_ne_empty {s : String} (h : s ≠ "") : s.data ≠ [] := by
  intro hd
  apply h
  cases s with
  | mk l =>
    have hl : l = [] := hd
    rw [hl]

/-- C6 counterexample: the php normalization is not idempotent — on
whitespace-only content the first application stores `"<?php\r\n"` and
the second trims the trailing newline away, yielding `"<?php"`. -/
theorem c6_php_inject_not_idem_cex :
    materializeText "php" (materializeText "php" "") = "<?php" ∧
    materializeText "php" "" = "<?php\r\n" ∧
    ("<?php" : String) ≠ "<?php\r\n" := by
  refine ⟨by decide, by decide, by decide⟩

/-- C6 (amended): writing the temp file and reading it back yields the
stored content exactly; for a language other than php the stored content
is the original content; for php it is the trimmed content prefixed with
`"<?php\r\n"` when the trimmed text does not already start with
`"<?php"`; the normalization is idempotent for every content whose
trimmed text is nonempty, and on whitespace-only content re-applying it
yields `"<?php"` — still a single prefix, never a duplicated one. -/
theorem c6_materialize_roundtrip :
    (∀ (fs : String → Option String) (path languageId content : String),
      fsWrite fs path (materializeText languageId content) path =
        some (materializeText languageId content))
    ∧ (∀ languageId content, languageId ≠ "php" →
      materializeText languageId content = content)
    ∧ (∀ content, "<?php".data.isPrefixOf (jsTrim content).data = false →
      materializeText "php" content = "<?php\r\n" ++ jsTrim content)
    ∧ (∀ languageId content, jsTrim content ≠ "" →
      materializeText languageId (materializeText languageId content) =
        materializeText languageId content)
    ∧ (∀ content, jsTrim content = "" →
      materializeText "php" (materializeText "php" content) = "<?php") := by
  refine ⟨?_, ?_, ?_, ?_, ?_⟩
  · intro fs path languageId content
    simp [fsWrite]
  · intro languageId content h
    simp [materializeText, h]
  · intro content h
    simp [materializeText, phpInject, h]
  · intro languageId content hne
    by_cases hl : languageId = "php"
    · subst hl
      have hidem : jsTrim (jsTrim content) = jsTrim content := by
        show (⟨jsTrimL (jsTrimL content.data)⟩ : String) = ⟨jsTrimL content.data⟩
        rw [jsTrimL_idem]
      by_cases hpre : "<?php".data.isPrefixOf (jsTrim content).data = true
      · have h1 : materializeText "php" content = jsTrim content := by
          simp [materializeText, phpInject, hpre]
        rw [h1]
        simp [materializeText, phpInject, hidem, hpre]
      · have hfalse : "<?php".data.isPrefixOf (jsTrim content).data = false :=
          Bool.eq_false_iff.mpr hpre
        have h1 : materializeText "php" content = "<?php\r\n" ++ jsTrim content := by
          simp [materializeText, phpInject, hfalse]
        rw [h1]
        have htd : (jsTrim content).data ≠ [] := data_ne_nil_of_ne_empty hne
        have hdata : ("<?php\r\n" ++ jsTrim content).data
            = "<?php\r\n".data ++ (jsTrim content).data := String.data_append ..
        have hhead : ∀ c, ("<?php\r\n".data ++ (jsTrim content).data).head? = some c →
            isJsWs c = false := by
          intro c hc
          have h3 : some '<' = some c := by
            rw [← hc]
            rfl
          have h4 : '<' = c := (Option.some.injEq ..).mp h3
          rw [← h4]
          decide
        have hlast : ∀ c, ("<?php\r\n".data ++ (jsTrim content).data).getLast? = some c →
            isJsWs c = false := by
          intro c hc
          rw [List.getLast?_append_of_ne_nil _ htd] at hc
          exact trim_getLast?_false content.data c hc
        have htrimL : jsTrimL ("<?php\r\n".data ++ (jsTrim content).data)
            = "<?php\r\n".data ++ (jsTrim content).data :=
          jsTrimL_eq_self _ hhead hlast
        have htrim : jsTrim ("<?php\r\n" ++ jsTrim content) = "<?php\r\n" ++ jsTrim content := by
          show (⟨jsTrimL ("<?php\r\n" ++ jsTrim content).data⟩ : String) = _
          rw [hdata, htrimL, ← hdata]
        have hpre2 : "<?php".data.isPrefixOf
            (jsTrim ("<?php\r\n" ++ jsTrim content)).data = true := by
          rw [htrim, hdata]
          apply List.isPrefixOf_iff_prefix.mpr
          refine ⟨['\r', '\n'] ++ (jsTrim content).data, ?_⟩
          rw [show "<?php\r\n".data = "<?php".data ++ ['\r', '\n'] from rfl]
          exact (List.append_assoc ..).symm
        simp [materializeText, phpInject, htrim, hpre2]
    · simp [materializeText, hl]
  · intro content h
    have h1 : materializeText "php" content = "<?php\r\n" := by
      have hfalse : "<?php".data.isPrefixOf (jsTrim content).data = false := by
        rw [h]
        decide
      simp [materializeText, phpInject, hfalse, h, String.append_empty]
    rw [h1]
    decide

/-- C6 witness: the php scenario from the specification and a non-php
identity round trip. -/
theorem c6_materialize_roundtrip_witness :
    materializeText "php" "echo 1;" = "<?php\r\n" ++ jsTrim "echo 1;" ∧
    materializeText "markdown" "x" = "x" :=
  ⟨c6_materialize_roundtrip.2.2.1 "echo 1;" (by decide),
   c6_materialize_roundtrip.2.1 "markdown" "x" (by decide)⟩

theorem placeholderValues_ok (rp : Option String) (cf dir0 stem0 base0 : String)
    (h1 : getCodeFileDir cf = .ok dir0) (h2 : getCodeFileWithoutDirAndExt cf = .ok stem0)
    (h3 : getCodeBaseFile cf = .ok base0) :
    placeholderValues rp cf = .ok
      [("$workspaceRoot", getWorkspaceRoot rp dir0), ("$fileNameWithoutExt", stem0),
       ("$fullFileName", quoteFileName cf), ("$fileName", base0),
       ("$dirWithoutTrailingSlash", quoteFileName (stripTrailingSep dir0)),
       ("$dir", quoteFileName dir0)] := by
  rw [placeholderValues, h1, h2, h3]
  rfl

theorem jsReplace_not_occurs (s pat v : String) (hne : pat.data ≠ [])
    (hocc : occursB pat.data s.data = false) : jsReplace s pat v = s := by
  show (⟨replaceL pat.data v.data s.data⟩ : String) = s
  rw [replaceL_not_occurs _ _ hne _ hocc]

theorem substitutedCommand_of_placeholderFree (rp : Option String)
    (cf tpl dir0 stem0 base0 : String)
    (h1 : getCodeFileDir cf = .ok dir0) (h2 : getCodeFileWithoutDirAndExt cf = .ok stem0)
    (h3 : getCodeBaseFile cf = .ok base0) (hfree : placeholderFree tpl) :
    substitutedCommand rp cf tpl = .ok tpl := by
  obtain ⟨hf1, hf2, hf3, hf4, hf5, hf6⟩ := hfree
  rw [substitutedCommand, placeholderValues_ok rp cf dir0 stem0 base0 h1 h2 h3]
  simp only [Except.map, applyPairs, List.foldl]
  rw [jsReplace_not_occurs tpl "$workspaceRoot" _ (by decide) hf1,
    jsReplace_not_occurs tpl "$fileNameWithoutExt" _ (by decide) hf2,
    jsReplace_not_occurs tpl "$fullFileName" _ (by decide) hf3,
    jsReplace_not_occurs tpl "$fileName" _ (by decide) hf4,
    jsReplace_not_occurs tpl "$dirWithoutTrailingSlash" _ (by decide) hf5,
    jsReplace_not_occurs tpl "$dir" _ (by decide) hf6]

/-- C3 counterexample: for the separator-free code file path `"ab"` the
builder throws while computing the placeholder values — even though the
template `"echo hi"` contains no placeholder — instead of returning the
template plus the quoted path. -/
theorem c3_builder_throws_cex :
    getFinalCommandToRunCodeFile none "ab" "echo hi" true = .error .nullMatch ∧
    (Except.error JsErr.nullMatch : Except JsErr String) ≠
      .ok ("echo hi" ++ " " ++ quoteFileName "ab") :=
  ⟨rfl, fun h => Except.noConfusion h⟩

/-- C3 (amended): for a template containing none of the six placeholders
and a code file path on which the placeholder values are defined (or the
empty path, which skips substitution), appendFile=true yields the
template, a space and the double-quoted path, and appendFile=false
yields the template unchanged; and whenever substitution changes the
template, the result is that substituted command for both appendFile
values (the append rule only fires when the substituted command equals
the template). -/
theorem c3_append_rules :
    (∀ tpl cf rp dir0 stem0 base0, placeholderFree tpl →
      getCodeFileDir cf = .ok dir0 → getCodeFileWithoutDirAndExt cf = .ok stem0 →
      getCodeBaseFile cf = .ok base0 →
      getFinalCommandToRunCodeFile rp cf tpl true = .ok (tpl ++ " " ++ quoteFileName cf) ∧
      getFinalCommandToRunCodeFile rp cf tpl false = .ok tpl)
    ∧ (∀ tpl rp,
      getFinalCommandToRunCodeFile rp "" tpl true = .ok (tpl ++ " " ++ quoteFileName "") ∧
      getFinalCommandToRunCodeFile rp "" tpl false = .ok tpl)
    ∧ (∀ tpl cf rp cmd0, cf ≠ "" → substitutedCommand rp cf tpl = .ok cmd0 → cmd0 ≠ tpl →
      getFinalCommandToRunCodeFile rp cf tpl true = .ok cmd0 ∧
      getFinalCommandToRunCodeFile rp cf tpl false = .ok cmd0) := by
  refine ⟨?_, ?_, ?_⟩
  · intro tpl cf rp dir0 stem0 base0 hfree h1 h2 h3
    have hne : cf ≠ "" := by
      intro heq
      rw [heq] at h1
      exact Except.noConfusion h1
    have hsub := substitutedCommand_of_placeholderFree rp cf tpl dir0 stem0 base0 h1 h2 h3 hfree
    constructor
    · rw [getFinalCommandToRunCodeFile, if_pos hne, hsub]
      simp [Except.map, finalizeCmd, String.append_assoc]
    · rw [getFinalCommandToRunCodeFile, if_pos hne, hsub]
      simp [Except.map, finalizeCmd]
  · intro tpl rp
    constructor
    · rw [getFinalCommandToRunCodeFile, if_neg (by simp)]
      simp [finalizeCmd, String.append_assoc]
    · rw [getFinalCommandToRunCodeFile, if_neg (by simp)]
      simp [finalizeCmd]
  · intro tpl cf rp cmd0 hne hsub hneq
    constructor
    · rw [getFinalCommandToRunCodeFile, if_pos hne, hsub]
      simp [Except.map, finalizeCmd, hneq]
    · rw [getFinalCommandToRunCodeFile, if_pos hne, hsub]
      simp [Except.map, finalizeCmd, hneq]

/-- C3 witness: the append rule at a concrete template and path, and a
`$fileName` template whose substituted command is the same for both
appendFile values. -/
theorem c3_append_rules_witness :
    getFinalCommandToRunCodeFile none "/h/m.c" "echo hi" true =
      .ok ("echo hi" ++ " " ++ quoteFileName "/h/m.c") ∧
    getFinalCommandToRunCodeFile none "/h/m.c" "echo hi" false = .ok "echo hi" ∧
    getFinalCommandToRunCodeFile none "/h/m.c" "cat $fileName" true = .ok "cat m.c" ∧
    getFinalCommandToRunCodeFile none "/h/m.c" "cat $fileName" false = .ok "cat m.c" :=
  ⟨(c3_append_rules.1 "echo hi" "/h/m.c" none "/h/" "m" "m.c" ⟨rfl, rfl, rfl, rfl, rfl, rfl⟩
      rfl rfl rfl).1,
   (c3_append_rules.1 "echo hi" "/h/m.c" none "/h/" "m" "m.c" ⟨rfl, rfl, rfl, rfl, rfl, rfl⟩
      rfl rfl rfl).2,
   (c3_append_rules.2.2 "cat $fileName" "/h/m.c" none "cat m.c" (by decide) rfl (by decide)).1,
   (c3_append_rules.2.2 "cat $fileName" "/h/m.c" none "cat m.c" (by decide) rfl (by decide)).2⟩

theorem mem_icalate {c : Char} (sep : List Char) :
    ∀ parts, c ∈ icalate sep parts → c ∈ sep ∨ ∃ x ∈ parts, c ∈ x
  | [] => by simp [icalate]
  | [x] => by
    rw [icalate]
    intro h
    exact Or.inr ⟨x, by simp, h⟩
  | x :: y :: rest => by
    rw [icalate]
    intro h
    rcases List.mem_append.mp h with h | h
    · rcases List.mem_append.mp h with h | h
      · exact Or.inr ⟨x, by simp, h⟩
      · exact Or.inl h
    · rcases mem_icalate sep (y :: rest) h with h | ⟨z, hz, hcz⟩
      · exact Or.inl h
      · exact Or.inr ⟨z, by simp [hz], hcz⟩

/-- C1 counterexample: with the code file `"/a/b.c"`, the builder's pair
list replaces `$fileNameWithoutExt` before `$fileName`; applying a
permutation of the same pairs with `$fileName` first turns the template
`"$fileNameWithoutExt"` into `"b.cWithoutExt"` instead of `"b"` — the
result is NOT independent of the order in which the placeholders are
applied. -/
theorem c1_order_dependence_cex :
    placeholderValues none "/a/b.c" = Except.ok
      [("$workspaceRoot", "/a/"), ("$fileNameWithoutExt", "b"),
       ("$fullFileName", "\"/a/b.c\""), ("$fileName", "b.c"),
       ("$dirWithoutTrailingSlash", "\"/a\""), ("$dir", "\"/a/\"")] ∧
    List.Perm
      [("$fileName", ("b.c" : String)), ("$workspaceRoot", "/a/"),
       ("$fileNameWithoutExt", "b"), ("$fullFileName", "\"/a/b.c\""),
       ("$dirWithoutTrailingSlash", "\"/a\""), ("$dir", "\"/a/\"")]
      [("$workspaceRoot", "/a/"), ("$fileNameWithoutExt", "b"),
       ("$fullFileName", "\"/a/b.c\""), ("$fileName", "b.c"),
       ("$dirWithoutTrailingSlash", "\"/a\""), ("$dir", "\"/a/\"")] ∧
    applyPairs "$fileNameWithoutExt"
      [("$fileName", "b.c"), ("$workspaceRoot", "/a/"),
       ("$fileNameWithoutExt", "b"), ("$fullFileName", "\"/a/b.c\""),
       ("$dirWithoutTrailingSlash", "\"/a\""), ("$dir", "\"/a/\"")] ≠
    applyPairs "$fileNameWithoutExt"
      [("$workspaceRoot", "/a/"), ("$fileNameWithoutExt", "b"),
       ("$fullFileName", "\"/a/b.c\""), ("$fileName", "b.c"),
       ("$dirWithoutTrailingSlash", "\"/a\""), ("$dir", "\"/a/\"")] := by
  refine ⟨rfl, by decide, by decide⟩

/-- C1 (amended): each pass replaces EVERY (left-to-right,
non-overlapping) occurrence of its placeholder — for a template built as
dollar-free segments joined by `$fullFileName`, the six passes in the
code's fixed order replace every copy with the quoted file path and
leave everything else alone — but the result depends on that order,
which puts `$fileNameWithoutExt` before its prefix `$fileName` and
`$dirWithoutTrailingSlash` before its prefix `$dir`. -/
theorem c1_global_fixed_order (parts : List (List Char)) (cf : String) (rp : Option String)
    (dir0 stem0 base0 : String)
    (h1 : getCodeFileDir cf = .ok dir0) (h2 : getCodeFileWithoutDirAndExt cf = .ok stem0)
    (h3 : getCodeBaseFile cf = .ok base0)
    (hparts : ∀ x ∈ parts, '$' ∉ x) (hcf : '$' ∉ cf.data) :
    substitutedCommand rp cf ⟨icalate "$fullFileName".data parts⟩ =
      .ok ⟨icalate (quoteFileName cf).data parts⟩ := by
  rw [substitutedCommand, placeholderValues_ok rp cf dir0 stem0 base0 h1 h2 h3]
  simp only [Except.map, applyPairs, List.foldl]
  congr 1
  have e1 : jsReplace ⟨icalate "$fullFileName".data parts⟩ "$workspaceRoot"
      (getWorkspaceRoot rp dir0) = ⟨icalate "$fullFileName".data parts⟩ := by
    show (⟨replaceL "$workspaceRoot".data _ (icalate "$fullFileName".data parts)⟩ : String) = _
    rw [show "$workspaceRoot".data = '$' :: "workspaceRoot".data from rfl,
      show "$fullFileName".data = '$' :: "fullFileName".data from rfl,
      replaceL_dollar_other "workspaceRoot".data "fullFileName".data _
        (by decide) (by decide) (by decide) parts hparts]
  have e2 : jsReplace ⟨icalate "$fullFileName".data parts⟩ "$fileNameWithoutExt"
      stem0 = ⟨icalate "$fullFileName".data parts⟩ := by
    show (⟨replaceL "$fileNameWithoutExt".data _ (icalate "$fullFileName".data parts)⟩ : String) = _
    rw [show "$fileNameWithoutExt".data = '$' :: "fileNameWithoutExt".data from rfl,
      show "$fullFileName".data = '$' :: "fullFileName".data from rfl,
      replaceL_dollar_other "fileNameWithoutExt".data "fullFileName".data _
        (by decide) (by decide) (by decide) parts hparts]
  have e3 : jsReplace ⟨icalate "$fullFileName".data parts⟩ "$fullFileName"
      (quoteFileName cf) = ⟨icalate (quoteFileName cf).data parts⟩ := by
    show (⟨replaceL "$fullFileName".data _ (icalate "$fullFileName".data parts)⟩ : String) = _
    rw [show "$fullFileName".data = '$' :: "fullFileName".data from rfl,
      replaceL_dollar_icalate "fullFileName".data _ (by decide) parts hparts]
  have hicalfree : '$' ∉ icalate (quoteFileName cf).data parts := by
    intro hmem
    rcases mem_icalate _ parts hmem with h | ⟨x, hx, hcx⟩
    · rw [show (quoteFileName cf).data = '"' :: (cf.data ++ ['"']) by
        simp [quoteFileName, String.data_append]] at h
      rcases List.mem_cons.mp h with h | h
      · exact absurd h (by decide)
      · rcases List.mem_append.mp h with h | h
        · exact hcf h
        · exact absurd (List.mem_singleton.mp h) (by decide)
    · exact hparts x hx hcx
  have notocc : ∀ (pat : String), pat.data = '$' :: pat.data.tail →
      occursB pat.data (icalate (quoteFileName cf).data parts) = false := by
    intro pat hpat
    cases hb : occursB pat.data (icalate (quoteFileName cf).data parts) with
    | false => rfl
    | true =>
      exact absurd (mem_of_occursB hb (by rw [hpat]; simp)) hicalfree
  have e4 : jsReplace ⟨icalate (quoteFileName cf).data parts⟩ "$fileName" base0
      = ⟨icalate (quoteFileName cf).data parts⟩ :=
    jsReplace_not_occurs _ _ _ (by decide) (notocc "$fileName" rfl)
  have e5 : jsReplace ⟨icalate (quoteFileName cf).data parts⟩ "$dirWithoutTrailingSlash"
      (quoteFileName (stripTrailingSep dir0)) = ⟨icalate (quoteFileName cf).data parts⟩ :=
    jsReplace_not_occurs _ _ _ (by decide) (notocc "$dirWithoutTrailingSlash" rfl)
  have e6 : jsReplace ⟨icalate (quoteFileName cf).data parts⟩ "$dir" (quoteFileName dir0)
      = ⟨icalate (quoteFileName cf).data parts⟩ :=
    jsReplace_not_occurs _ _ _ (by decide) (notocc "$dir" rfl)
  rw [e1, e2, e3, e4, e5, e6]

/-- C1 witness: the globality theorem at two concrete dollar-free
segments joined by two copies of `$fullFileName` — both copies are
replaced by the quoted path. -/
theorem c1_global_fixed_order_witness :
    substitutedCommand none "/h/m.c"
      ⟨icalate "$fullFileName".data ["cp ".data, " ".data, ".bak".data]⟩ =
    .ok ⟨icalate (quoteFileName "/h/m.c").data ["cp ".data, " ".data, ".bak".data]⟩ :=
  c1_global_fixed_order ["cp ".data, " ".data, ".bak".data] "/h/m.c" none "/h/" "m" "m.c"
    rfl rfl rfl (by decide) (by decide)

/-- C5: on a Windows host with a truthy configured shell whose lowercase
name contains "powershell" and a command containing `" && "`, the
adapter's output is the split-and-rejoin form: the text before the first
`&&` unchanged, `"; if ($?) \x7b"` for the first `&&`,
`"\x7d ; if ($?) \x7b"` for every subsequent one, the
`$dir$fileNameWithoutExt` pattern rewritten to the relative
`.\$fileNameWithoutExt`, and a closing brace appended; in every other
case (off Windows, no shell, untruthy shell, no "powershell" in the
name, no `" && "`) the command is returned unchanged. -/
theorem c5_ps_chain_adapter :
    (∀ sh e, sh ≠ "" → sContains (jsToLower sh) "powershell" = true →
      sContains e " && " = true →
      changeExecutorFromCmdToPs true (some sh) e = psChainedForm e)
    ∧ (∀ wsh e, changeExecutorFromCmdToPs false wsh e = e)
    ∧ (∀ e, changeExecutorFromCmdToPs true none e = e)
    ∧ (∀ sh e, (sh = "" ∨ sContains (jsToLower sh) "powershell" = false ∨
        sContains e " && " = false) →
      changeExecutorFromCmdToPs true (some sh) e = e) := by
  refine ⟨?_, ?_, ?_, ?_⟩
  · intro sh e hsh hps hamp
    have hocc : occursB ['&', '&'] e.data = true := by
      obtain ⟨a, b, hab⟩ := (occursB_iff " && ".data e.data).mp hamp
      apply (occursB_iff ['&', '&'] e.data).mpr
      refine ⟨a ++ [' '], ' ' :: b, ?_⟩
      rw [hab]
      simp
    obtain ⟨x, t, hsplit⟩ : ∃ x t, splitL ['&', '&'] e.data = x :: t := by
      cases hs : splitL ['&', '&'] e.data with
      | nil => exact absurd hs (splitL_ne_nil _ _)
      | cons x t => exact ⟨x, t, rfl⟩
    have hkey := amp_first_then_all e.data "; if ($?) \x7b".data
      ("\x7d " ++ "; if ($?) \x7b").data (by decide) (by decide) hocc x t hsplit
    have hmid : jsReplace (jsReplaceFirst e "&&" "; if ($?) \x7b") "&&"
        ("\x7d " ++ "; if ($?) \x7b")
        = ⟨x ++ "; if ($?) \x7b".data ++ icalate ("\x7d ; if ($?) \x7b").data t⟩ := by
      show (⟨replaceL "&&".data ("\x7d " ++ "; if ($?) \x7b").data
        (replaceFirstL "&&".data "; if ($?) \x7b".data e.data)⟩ : String) = _
      rw [show "&&".data = ['&', '&'] from rfl, hkey,
        show ("\x7d " ++ "; if ($?) \x7b").data = "\x7d ; if ($?) \x7b".data from rfl]
    have hspec : psChainedForm e =
        jsReplace ⟨x ++ "; if ($?) \x7b".data ++ icalate ("\x7d ; if ($?) \x7b").data t⟩
          "$dir$fileNameWithoutExt" ".\\$fileNameWithoutExt" ++ " \x7d" := by
      simp only [psChainedForm]
      rw [hsplit]
    rw [hspec, ← hmid]
    simp only [changeExecutorFromCmdToPs, if_true]
    rw [if_pos ⟨hsh, hps, hamp⟩]
  · intro wsh e
    rfl
  · intro e
    rfl
  · intro sh e h
    have hnot : ¬ (sh ≠ "" ∧ sContains (jsToLower sh) "powershell" = true ∧
        sContains e " && " = true) := by
      rcases h with h | h | h
      · exact fun hcon => hcon.1 h
      · exact fun hcon => by rw [hcon.2.1] at h; exact Bool.noConfusion h
      · exact fun hcon => by rw [hcon.2.2] at h; exact Bool.noConfusion h
    simp only [changeExecutorFromCmdToPs, if_true]
    rw [if_neg hnot]

/-- C5 witness: the specification's gcc scenario under a PowerShell
shell — the single `&&` becomes the conditional block opener, the
directory+stem pattern becomes the relative form, and the closing brace
is appended. -/
theorem c5_ps_chain_adapter_witness :
    changeExecutorFromCmdToPs true (some "powershell.exe")
      "gcc $dir$fileNameWithoutExt.c -o $dir$fileNameWithoutExt && $dir$fileNameWithoutExt" =
      "gcc .\\$fileNameWithoutExt.c -o .\\$fileNameWithoutExt ; if ($?) \x7b .\\$fileNameWithoutExt \x7d" := by
  have h := c5_ps_chain_adapter.1 "powershell.exe"
    "gcc $dir$fileNameWithoutExt.c -o $dir$fileNameWithoutExt && $dir$fileNameWithoutExt"
    (by decide) (by decide) (by decide)
  rw [h]
  decide
